import Mathlib

/-!
Verification of the clustering pretext-task core of the radioSSL repository.

The development shallowly embeds the pure computational core of
`tools.py` (`sinkhorn`, `ce_loss`, `swav_loss`, `roi_align_intersect`,
`AverageMeter`) and the per-batch guard logic of
`train_3d.py` (`train_cluster_inner`, `train_cluster_patch_inner`).

Two value domains are used:
* exact rationals `ℚ` for claims about exact arithmetic identities
  (float rounding is idealized away; division by zero is the junk value 0);
* `FVal`, an IEEE-754-like extended domain (finite rationals, two
  infinities, NaN, signed zero not modelled) for claims that are about
  NaN/∞ propagation in the float code.
-/

/-! ## Sinkhorn over exact rationals (tools.py, lines 583-605) -/

/-- Total of all entries of `Q` (`torch.sum(Q)`). -/
def totalSum {K B : ℕ} (Q : Fin K → Fin B → ℚ) : ℚ :=
  ∑ k, ∑ j, Q k j

/-- Row sums of `Q` (`torch.sum(Q, dim=1)`, the `u` of the solver). -/
def rowSum {K B : ℕ} (Q : Fin K → Fin B → ℚ) (k : Fin K) : ℚ :=
  ∑ j, Q k j

/-- Column sums of `Q` (`torch.sum(Q, dim=0)`). -/
def colSum {K B : ℕ} (Q : Fin K → Fin B → ℚ) (j : Fin B) : ℚ :=
  ∑ k, Q k j

/-- In-place row rescale `Q *= (r / u).unsqueeze(1)` with
`r = torch.ones(K) / K` and `u = torch.sum(Q, dim=1)`.

Caveat of the ℚ carrier: when a row sum is 0 the rational division
yields the junk value 0 and the zero row stays zero, whereas the float
code computes `(1/K)/0 = inf` and then `0 * inf = NaN`, poisoning the
matrix.  Theorems about exact values must therefore carry hypotheses
under which every divisor of the algorithm is strictly positive (as
`sinkhorn_row_sums_one` does); the error path itself is modelled
faithfully by `frowScale` over the `FVal` domain below and exhibited in
`sinkhorn_row_sum_cex`. -/
def rowScale {K B : ℕ} (Q : Fin K → Fin B → ℚ) : Fin K → Fin B → ℚ :=
  fun k j => Q k j * ((1 / (K : ℚ)) / rowSum Q k)

/-- In-place column rescale `Q *= (c / torch.sum(Q, dim=0)).unsqueeze(0)`
with `c = torch.ones(B) / B`. -/
def colScale {K B : ℕ} (Q : Fin K → Fin B → ℚ) : Fin K → Fin B → ℚ :=
  fun k j => Q k j * ((1 / (B : ℚ)) / colSum Q j)

/-- Body of one iteration of the `for _ in range(nmb_iters)` loop:
the row rescale followed by the column rescale on the updated matrix. -/
def sinkhornStep {K B : ℕ} (Q : Fin K → Fin B → ℚ) : Fin K → Fin B → ℚ :=
  colScale (rowScale Q)

/-- The loop `for _ in range(nmb_iters)` applied to a starting matrix. -/
def sinkhornIter {K B : ℕ} : ℕ → (Fin K → Fin B → ℚ) → (Fin K → Fin B → ℚ)
  | 0, Q => Q
  | Nat.succ n, Q => sinkhornIter n (sinkhornStep Q)

/-- The initial in-place normalization `Q /= sum_Q`. -/
def sinkhornInit {K B : ℕ} (Q : Fin K → Fin B → ℚ) : Fin K → Fin B → ℚ :=
  fun k j => Q k j / totalSum Q

/-- Value returned by `sinkhorn(args, Q, nmb_iters)`:
`(Q / torch.sum(Q, dim=0, keepdim=True)).t()` after the initial
normalization and `nmb_iters` scaling iterations.  The result is indexed
`(column, cluster)`, the transpose of the worked matrix. -/
def sinkhorn {K B : ℕ} (Q : Fin K → Fin B → ℚ) (nmb_iters : ℕ) :
    Fin B → Fin K → ℚ :=
  fun j k =>
    sinkhornIter nmb_iters (sinkhornInit Q) k j /
      colSum (sinkhornIter nmb_iters (sinkhornInit Q)) j

/-- State of the caller's tensor `Q` after `sinkhorn` returns: the
function divides `Q` by its total in place (`Q /= sum_Q`) and rescales it
in place in every iteration (`Q *= ...`); only the final division by the
column sums in the `return` expression allocates a fresh tensor. -/
def sinkhornFinalQ {K B : ℕ} (Q : Fin K → Fin B → ℚ) (nmb_iters : ℕ) :
    Fin K → Fin B → ℚ :=
  sinkhornIter nmb_iters (sinkhornInit Q)

/-! ### Invariants of the scaling iterations -/

lemma rowSum_nonneg {K B : ℕ} {Q : Fin K → Fin B → ℚ}
    (h : ∀ k j, 0 ≤ Q k j) (k : Fin K) : 0 ≤ rowSum Q k :=
  Finset.sum_nonneg fun j _ => h k j

lemma colSum_nonneg {K B : ℕ} {Q : Fin K → Fin B → ℚ}
    (h : ∀ k j, 0 ≤ Q k j) (j : Fin B) : 0 ≤ colSum Q j :=
  Finset.sum_nonneg fun k _ => h k j

lemma le_rowSum {K B : ℕ} {Q : Fin K → Fin B → ℚ}
    (h : ∀ k j, 0 ≤ Q k j) (k : Fin K) (j : Fin B) : Q k j ≤ rowSum Q k :=
  Finset.single_le_sum (f := fun j' => Q k j') (fun j' _ => h k j')
    (Finset.mem_univ j)

lemma le_colSum {K B : ℕ} {Q : Fin K → Fin B → ℚ}
    (h : ∀ k j, 0 ≤ Q k j) (k : Fin K) (j : Fin B) : Q k j ≤ colSum Q j :=
  Finset.single_le_sum (f := fun k' => Q k' j) (fun k' _ => h k' j)
    (Finset.mem_univ k)

lemma le_totalSum {K B : ℕ} {Q : Fin K → Fin B → ℚ}
    (h : ∀ k j, 0 ≤ Q k j) (k : Fin K) (j : Fin B) : Q k j ≤ totalSum Q := by
  calc Q k j ≤ rowSum Q k := le_rowSum h k j
  _ ≤ ∑ k', rowSum Q k' :=
      Finset.single_le_sum (f := fun k' => rowSum Q k')
        (fun k' _ => rowSum_nonneg h k') (Finset.mem_univ k)
  _ = totalSum Q := rfl

lemma rowScale_nonneg {K B : ℕ} {Q : Fin K → Fin B → ℚ}
    (h : ∀ k j, 0 ≤ Q k j) : ∀ k j, 0 ≤ rowScale Q k j := by
  intro k j
  exact mul_nonneg (h k j)
    (div_nonneg (by positivity) (rowSum_nonneg h k))

lemma colScale_nonneg {K B : ℕ} {Q : Fin K → Fin B → ℚ}
    (h : ∀ k j, 0 ≤ Q k j) : ∀ k j, 0 ≤ colScale Q k j := by
  intro k j
  exact mul_nonneg (h k j)
    (div_nonneg (by positivity) (colSum_nonneg h j))

lemma rowScale_pos {K B : ℕ} {Q : Fin K → Fin B → ℚ}
    (h : ∀ k j, 0 ≤ Q k j) {k : Fin K} {j : Fin B}
    (hp : 0 < Q k j) : 0 < rowScale Q k j := by
  have hK : (0 : ℚ) < (K : ℚ) := by exact_mod_cast k.pos
  have hu : 0 < rowSum Q k := lt_of_lt_of_le hp (le_rowSum h k j)
  exact mul_pos hp (div_pos (by positivity) hu)

lemma colScale_pos {K B : ℕ} {Q : Fin K → Fin B → ℚ}
    (h : ∀ k j, 0 ≤ Q k j) {k : Fin K} {j : Fin B}
    (hp : 0 < Q k j) : 0 < colScale Q k j := by
  have hB : (0 : ℚ) < (B : ℚ) := by exact_mod_cast j.pos
  have hc : 0 < colSum Q j := lt_of_lt_of_le hp (le_colSum h k j)
  exact mul_pos hp (div_pos (by positivity) hc)

lemma sinkhornStep_nonneg {K B : ℕ} {Q : Fin K → Fin B → ℚ}
    (h : ∀ k j, 0 ≤ Q k j) : ∀ k j, 0 ≤ sinkhornStep Q k j :=
  colScale_nonneg (rowScale_nonneg h)

lemma sinkhornStep_pos {K B : ℕ} {Q : Fin K → Fin B → ℚ}
    (h : ∀ k j, 0 ≤ Q k j) {k : Fin K} {j : Fin B}
    (hp : 0 < Q k j) : 0 < sinkhornStep Q k j :=
  colScale_pos (rowScale_nonneg h) (rowScale_pos h hp)

lemma sinkhornIter_inv {K B : ℕ} (n : ℕ) (Q : Fin K → Fin B → ℚ)
    (h : ∀ k j, 0 ≤ Q k j) :
    (∀ k j, 0 ≤ sinkhornIter n Q k j) ∧
      (∀ k j, 0 < Q k j → 0 < sinkhornIter n Q k j) := by
  induction n generalizing Q with
  | zero => exact ⟨h, fun _ _ hp => hp⟩
  | succ n ih =>
    have hstep := sinkhornStep_nonneg h
    obtain ⟨h1, h2⟩ := ih (sinkhornStep Q) hstep
    exact ⟨h1, fun k j hp => h2 k j (sinkhornStep_pos h hp)⟩

lemma sinkhornIter_succ {K B : ℕ} (n : ℕ) (Q : Fin K → Fin B → ℚ) :
    sinkhornIter (n + 1) Q = sinkhornIter n (sinkhornStep Q) := rfl

lemma sinkhornIter_rowcol_inv {K B : ℕ} (n : ℕ) (Q : Fin K → Fin B → ℚ)
    (hnn : ∀ k j, 0 ≤ Q k j)
    (hr : ∀ k, ∃ j, 0 < Q k j) (hc : ∀ j, ∃ k, 0 < Q k j) :
    (∀ k j, 0 ≤ sinkhornIter n Q k j) ∧
      (∀ k, ∃ j, 0 < sinkhornIter n Q k j) ∧
      (∀ j, ∃ k, 0 < sinkhornIter n Q k j) := by
  induction n generalizing Q with
  | zero => exact ⟨hnn, hr, hc⟩
  | succ n ih =>
    exact ih (sinkhornStep Q) (sinkhornStep_nonneg hnn)
      (fun k => (hr k).imp fun j hj => sinkhornStep_pos hnn hj)
      (fun j => (hc j).imp fun k hk => sinkhornStep_pos hnn hk)

lemma totalSum_eq_sum_colSum {K B : ℕ} (Q : Fin K → Fin B → ℚ) :
    totalSum Q = ∑ j, colSum Q j := Finset.sum_comm

lemma colSum_colScale {K B : ℕ} {Q : Fin K → Fin B → ℚ} {j : Fin B}
    (hc : 0 < colSum Q j) : colSum (colScale Q) j = 1 / (B : ℚ) := by
  have : colSum (colScale Q) j
      = colSum Q j * ((1 / (B : ℚ)) / colSum Q j) := by
    simp only [colSum, colScale, ← Finset.sum_mul]
  rw [this, mul_comm, div_mul_cancel₀ _ (ne_of_gt hc)]

lemma sinkhornStep_totalSum {K B : ℕ} {Q : Fin K → Fin B → ℚ}
    (hK : 0 < K) (hB : 0 < B) (hpos : ∀ k j, 0 < Q k j) :
    totalSum (sinkhornStep Q) = 1 := by
  have hnn : ∀ k j, 0 ≤ Q k j := fun k j => (hpos k j).le
  have hrpos : ∀ k j, 0 < rowScale Q k j :=
    fun k j => rowScale_pos hnn (hpos k j)
  have hrnn : ∀ k j, 0 ≤ rowScale Q k j := fun k j => (hrpos k j).le
  rw [totalSum_eq_sum_colSum]
  have hcol : ∀ j : Fin B, colSum (sinkhornStep Q) j = 1 / (B : ℚ) := by
    intro j
    have hc : 0 < colSum (rowScale Q) j :=
      lt_of_lt_of_le (hrpos ⟨0, hK⟩ j) (le_colSum hrnn ⟨0, hK⟩ j)
    exact colSum_colScale hc
  rw [Finset.sum_congr rfl fun j _ => hcol j, Finset.sum_const,
    Finset.card_univ, Fintype.card_fin, nsmul_eq_mul]
  have hBQ : (B : ℚ) ≠ 0 := by
    exact_mod_cast Nat.pos_iff_ne_zero.mp hB
  field_simp

lemma sinkhornIter_pos_total {K B : ℕ} (hK : 0 < K) (hB : 0 < B) :
    ∀ (n : ℕ) (Q : Fin K → Fin B → ℚ), (∀ k j, 0 < Q k j) →
      totalSum Q = 1 →
      (∀ k j, 0 < sinkhornIter n Q k j) ∧
        totalSum (sinkhornIter n Q) = 1 := by
  intro n
  induction n with
  | zero => exact fun Q hp ht => ⟨hp, ht⟩
  | succ n ih =>
    intro Q hp ht
    have hp' : ∀ k j, 0 < sinkhornStep Q k j :=
      fun k j => sinkhornStep_pos (fun k' j' => (hp k' j').le) (hp k j)
    exact (sinkhornIter_succ n Q) ▸ ih (sinkhornStep Q) hp'
      (sinkhornStep_totalSum hK hB hp)

lemma sinkhornInit_totalSum {K B : ℕ} {Q : Fin K → Fin B → ℚ}
    (h : totalSum Q ≠ 0) : totalSum (sinkhornInit Q) = 1 := by
  have h2 : totalSum (sinkhornInit Q) = totalSum Q / totalSum Q := by
    simp only [sinkhornInit, totalSum, Finset.sum_div]
  rw [h2, div_self h]

/-- A 2 x 2 similarity matrix whose second column is all zero: non-negative
with positive total sum, yet degenerate for the column normalization of the
Sinkhorn solver. -/
def zeroColQ : Fin 2 → Fin 2 → ℚ :=
  fun _ j => if j = 0 then 1 else 0

/-- C1 (amended): for every non-negative matrix Q of shape K x B with
K, B ≥ 1, in which every row and every column each contain at least one
positive entry, and every `nmb_iters ≥ 1`: every divisor the float code
computes is strictly positive — the initial total sum `sum_Q`, every
iteration's row sums `u`, the column sums dividing each column rescale,
and the column sums of the final normalization — so the float execution
never forms `inf` or `NaN` and the ℚ values are its exact values; and
every row of the matrix returned by `sinkhorn` sums exactly to 1.
Excluding all-zero rows matters even though a zero row cannot prevent
the other rows from normalizing in exact arithmetic: in floats a zero
row makes `u = 0`, `r/u = inf` and `0 * inf = NaN`, which poisons the
whole matrix (see the second half of `sinkhorn_row_sum_cex`). -/
theorem sinkhorn_row_sums_one {K B : ℕ} (Q : Fin K → Fin B → ℚ) (n : ℕ)
    (_hK : 0 < K) (hB : 0 < B) (_hn : 1 ≤ n) (hnn : ∀ k j, 0 ≤ Q k j)
    (hrow : ∀ k, ∃ j, 0 < Q k j) (hcol : ∀ j, ∃ k, 0 < Q k j) :
    0 < totalSum Q ∧
      (∀ m k, 0 < rowSum (sinkhornIter m (sinkhornInit Q)) k) ∧
      (∀ m j, 0 < colSum (rowScale (sinkhornIter m (sinkhornInit Q))) j) ∧
      (∀ m j, 0 < colSum (sinkhornIter m (sinkhornInit Q)) j) ∧
      (∀ j, ∑ k, sinkhorn Q n j k = 1) := by
  obtain ⟨k0, hk0⟩ := hcol ⟨0, hB⟩
  have htS : 0 < totalSum Q :=
    lt_of_lt_of_le hk0 (le_totalSum hnn k0 ⟨0, hB⟩)
  have h0nn : ∀ k j, 0 ≤ sinkhornInit Q k j :=
    fun k j => div_nonneg (hnn k j) htS.le
  have h0r : ∀ k, ∃ j, 0 < sinkhornInit Q k j :=
    fun k => (hrow k).imp fun j hj => div_pos hj htS
  have h0c : ∀ j, ∃ k, 0 < sinkhornInit Q k j :=
    fun j => (hcol j).imp fun k hk => div_pos hk htS
  have hinv := fun m =>
    sinkhornIter_rowcol_inv m (sinkhornInit Q) h0nn h0r h0c
  refine ⟨htS, ?_, ?_, ?_, ?_⟩
  · intro m k
    obtain ⟨hm, hmr, _⟩ := hinv m
    obtain ⟨j, hj⟩ := hmr k
    exact lt_of_lt_of_le hj (le_rowSum hm k j)
  · intro m j
    obtain ⟨hm, _, hmc⟩ := hinv m
    obtain ⟨k, hk⟩ := hmc j
    exact lt_of_lt_of_le (rowScale_pos hm hk)
      (le_colSum (rowScale_nonneg hm) k j)
  · intro m j
    obtain ⟨hm, _, hmc⟩ := hinv m
    obtain ⟨k, hk⟩ := hmc j
    exact lt_of_lt_of_le hk (le_colSum hm k j)
  · intro j
    obtain ⟨hm, _, hmc⟩ := hinv n
    obtain ⟨k1, hk1⟩ := hmc j
    have hcolpos : 0 < colSum (sinkhornIter n (sinkhornInit Q)) j :=
      lt_of_lt_of_le hk1 (le_colSum hm k1 j)
    have hsum : ∑ k, sinkhorn Q n j k
        = colSum (sinkhornIter n (sinkhornInit Q)) j /
            colSum (sinkhornIter n (sinkhornInit Q)) j := by
      simp only [sinkhorn, colSum, Finset.sum_div]
    rw [hsum, div_self (ne_of_gt hcolpos)]

/-- C1 (witness): the amended theorem applied to the all-ones 2 x 2
matrix with one iteration; its total sum is positive and its first
output row sums to 1. -/
theorem sinkhorn_row_sums_one_witness :
    0 < totalSum (fun _ _ => (1 : ℚ) : Fin 2 → Fin 2 → ℚ) ∧
      ∑ k, sinkhorn (fun _ _ => (1 : ℚ) : Fin 2 → Fin 2 → ℚ) 1 0 k = 1 := by
  have h := sinkhorn_row_sums_one (fun _ _ => (1 : ℚ) : Fin 2 → Fin 2 → ℚ)
    1 (by norm_num) (by norm_num) (le_refl 1) (fun _ _ => by norm_num)
    (fun _ => ⟨0, by norm_num⟩) (fun _ => ⟨0, by norm_num⟩)
  exact ⟨h.1, h.2.2.2.2 0⟩

/-- C5: for a uniform similarity matrix (all entries equal to a positive
value `a`) with K = 4 clusters and a single column, `sinkhorn` returns the
exact uniform distribution: every entry equals 1/4, for every iteration
count. -/
theorem sinkhorn_uniform (a : ℚ) (ha : 0 < a) (n : ℕ) (j : Fin 1)
    (k : Fin 4) :
    sinkhorn (fun _ _ => a : Fin 4 → Fin 1 → ℚ) n j k = 1 / 4 := by
  have hinit : sinkhornInit (fun _ _ => a : Fin 4 → Fin 1 → ℚ)
      = fun _ _ => (1 / 4 : ℚ) := by
    funext k' j'
    have ht : totalSum (fun _ _ => a : Fin 4 → Fin 1 → ℚ) = 4 * a := by
      simp [totalSum, Fin.sum_univ_succ]
    simp only [sinkhornInit, ht]
    rw [div_eq_iff (by positivity)]; ring
  have hstep : sinkhornStep (fun _ _ => (1 / 4 : ℚ) : Fin 4 → Fin 1 → ℚ)
      = fun _ _ => (1 / 4 : ℚ) := by
    funext k' j'
    norm_num [sinkhornStep, rowScale, colScale, rowSum, colSum,
      Fin.sum_univ_succ]
  have hiter : ∀ m, sinkhornIter m (fun _ _ => (1 / 4 : ℚ) :
      Fin 4 → Fin 1 → ℚ) = fun _ _ => (1 / 4 : ℚ) := by
    intro m
    induction m with
    | zero => rfl
    | succ m ih => rw [sinkhornIter_succ, hstep, ih]
  rw [sinkhorn, hinit, hiter]
  norm_num [colSum, Fin.sum_univ_succ]

/-- C5 (witness): the uniform matrix with entries 2 and three iterations
evaluates to the exact uniform distribution. -/
theorem sinkhorn_uniform_witness :
    (0 : ℚ) < 2 ∧
      sinkhorn (fun _ _ => (2 : ℚ) : Fin 4 → Fin 1 → ℚ) 3 0 0 = 1 / 4 :=
  ⟨by norm_num, sinkhorn_uniform 2 (by norm_num) 3 0 0⟩

/-- The 1 x 1 matrix with single entry 1, a fixed point of every in-place
operation the Sinkhorn solver performs. -/
def fixedQ : Fin 1 → Fin 1 → ℚ := fun _ _ => 1

/-- C8 (counterexample): the caller's tensor is NOT changed for every
input: for the 1 x 1 matrix `[[1]]` the value stored in `Q` after
`sinkhorn(args, Q, 1)` returns is identical to the original, so the claim
that after the call the tensor never holds its original values is false. -/
theorem sinkhorn_mutation_cex : sinkhornFinalQ fixedQ 1 = fixedQ := by
  funext k j
  norm_num [sinkhornFinalQ, sinkhornIter, sinkhornStep, sinkhornInit,
    rowScale, colScale, rowSum, colSum, totalSum, fixedQ, Fin.sum_univ_one]

/-- C8 (amended): `sinkhorn` does mutate its argument in place (`Q /= sum_Q`
and the two `Q *= ...` rescalings write into the caller's tensor); for every
matrix with positive entries whose total sum is not 1 the stored values
after the call differ from the original ones (the stored total mass has
become exactly 1), so the solver is not a pure function — but matrices that
are fixed points of the scaling (total sum already 1) are returned
bit-identical. -/
theorem sinkhorn_mutates_input {K B : ℕ} (Q : Fin K → Fin B → ℚ) (n : ℕ)
    (hK : 0 < K) (hB : 0 < B) (hpos : ∀ k j, 0 < Q k j)
    (hsum : totalSum Q ≠ 1) : sinkhornFinalQ Q n ≠ Q := by
  intro heq
  have htS : 0 < totalSum Q :=
    lt_of_lt_of_le (hpos ⟨0, hK⟩ ⟨0, hB⟩)
      (le_totalSum (fun k j => (hpos k j).le) ⟨0, hK⟩ ⟨0, hB⟩)
  have h1p : ∀ k j, 0 < sinkhornInit Q k j :=
    fun k j => div_pos (hpos k j) htS
  have h1t : totalSum (sinkhornInit Q) = 1 :=
    sinkhornInit_totalSum (ne_of_gt htS)
  have hfin : totalSum (sinkhornFinalQ Q n) = 1 :=
    (sinkhornIter_pos_total hK hB n (sinkhornInit Q) h1p h1t).2
  rw [heq] at hfin
  exact hsum hfin

/-- C8 (witness): the amended theorem applied to the 1 x 1 matrix `[[2]]`
with one iteration. -/
theorem sinkhorn_mutates_input_witness :
    sinkhornFinalQ (fun _ _ => (2 : ℚ) : Fin 1 → Fin 1 → ℚ) 1
      ≠ (fun _ _ => (2 : ℚ)) :=
  sinkhorn_mutates_input (fun _ _ => (2 : ℚ)) 1 (by norm_num) (by norm_num)
    (fun _ _ => by norm_num)
    (by norm_num [totalSum, Fin.sum_univ_one])

/-! ## An IEEE-754-like value domain

The claims about NaN behaviour of the float code cannot be stated over ℚ.
`FVal` models a float as an exact rational, one of the two infinities, or
NaN (rounding and signed zero are not modelled; all claims below only
exercise exactly representable values). The operations follow IEEE-754:
NaN is absorbing, `0 * ±∞ = NaN`, `0 / 0 = NaN`, `x / 0 = ±∞` for
`x ≠ 0`, `±∞ / ±∞ = NaN`. -/

inductive FVal where
  | num : ℚ → FVal
  | pinf : FVal
  | ninf : FVal
  | nan : FVal
deriving DecidableEq

namespace FVal

/-- IEEE-like addition. -/
def add : FVal → FVal → FVal
  | nan, _ => nan
  | _, nan => nan
  | pinf, ninf => nan
  | ninf, pinf => nan
  | pinf, _ => pinf
  | _, pinf => pinf
  | ninf, _ => ninf
  | _, ninf => ninf
  | num a, num b => num (a + b)

/-- IEEE-like negation. -/
def neg : FVal → FVal
  | nan => nan
  | pinf => ninf
  | ninf => pinf
  | num a => num (-a)

/-- IEEE-like multiplication; `0 * ±∞ = NaN`. -/
def mul : FVal → FVal → FVal
  | nan, _ => nan
  | _, nan => nan
  | num a, num b => num (a * b)
  | pinf, pinf => pinf
  | pinf, ninf => ninf
  | ninf, pinf => ninf
  | ninf, ninf => pinf
  | pinf, num b => if b = 0 then nan else if 0 < b then pinf else ninf
  | num a, pinf => if a = 0 then nan else if 0 < a then pinf else ninf
  | ninf, num b => if b = 0 then nan else if 0 < b then ninf else pinf
  | num a, ninf => if a = 0 then nan else if 0 < a then ninf else pinf

/-- IEEE-like division; `0 / 0 = NaN`, `x / 0 = ±∞` for `x ≠ 0` (the sign
of zero is not modelled, a division by zero takes the sign of the
numerator). -/
def div : FVal → FVal → FVal
  | nan, _ => nan
  | _, nan => nan
  | num a, num b =>
      if b = 0 then (if a = 0 then nan else if 0 < a then pinf else ninf)
      else num (a / b)
  | num _, pinf => num 0
  | num _, ninf => num 0
  | pinf, num b => if 0 ≤ b then pinf else ninf
  | ninf, num b => if 0 ≤ b then ninf else pinf
  | pinf, pinf => nan
  | pinf, ninf => nan
  | ninf, pinf => nan
  | ninf, ninf => nan

lemma add_nan_left (x : FVal) : add nan x = nan := by cases x <;> rfl

lemma add_nan_right (x : FVal) : add x nan = nan := by cases x <;> rfl

lemma mul_nan_left (x : FVal) : mul nan x = nan := by cases x <;> rfl

lemma div_nan_left (x : FVal) : div nan x = nan := by cases x <;> rfl

lemma neg_nan : neg nan = nan := rfl

end FVal

/-- Sum of the elements of a tensor (`torch.sum` / the reduction inside
`torch.mean`), left-to-right over the flattened index range. -/
def fsum : {n : ℕ} → (Fin n → FVal) → FVal
  | 0, _ => FVal.num 0
  | _ + 1, f => FVal.add (f 0) (fsum fun i => f i.succ)

lemma fsum_all_zero : ∀ {n : ℕ} (f : Fin n → FVal),
    (∀ i, f i = FVal.num 0) → fsum f = FVal.num 0
  | 0, _, _ => rfl
  | n + 1, f, h => by
    rw [fsum, h 0, fsum_all_zero (fun i => f i.succ) (fun i => h i.succ)]
    show FVal.num (0 + 0) = FVal.num 0
    norm_num

lemma fsum_has_nan : ∀ {n : ℕ} (f : Fin n → FVal),
    (∃ i, f i = FVal.nan) → fsum f = FVal.nan
  | 0, _, h => absurd h (by simp)
  | n + 1, f, h => by
    obtain ⟨i, hi⟩ := h
    rcases Fin.eq_zero_or_eq_succ i with h0 | ⟨j, hj⟩
    · subst h0
      rw [fsum, hi, FVal.add_nan_left]
    · subst hj
      rw [fsum, fsum_has_nan (fun i => f i.succ) ⟨j, hi⟩,
        FVal.add_nan_right]

/-- Mean of the elements of a tensor (`torch.mean`). -/
def fmean {n : ℕ} (f : Fin n → FVal) : FVal :=
  FVal.div (fsum f) (FVal.num n)

/-- Float-domain `ce_loss(gt, out) = -torch.mean(gt * torch.log(out))`
(tools.py, lines 572-574), over the flattened tensor.  `flog` is the
library function `torch.log`, kept abstract; the theorems below constrain
it only at the values where it is applied (`log 1 = 0`, `log 0 = -inf`). -/
def ce_loss {n : ℕ} (flog : FVal → FVal) (gt out : Fin n → FVal) : FVal :=
  FVal.neg (fmean fun i => FVal.mul (gt i) (flog (out i)))

/-- Float-domain `swav_loss(gt1, gt2, out1, out2)` (tools.py, lines
576-580): `loss1 = ce_loss(gt1, out2)`, `loss2 = ce_loss(gt2, out1)`,
`loss = 0.5 * (loss1 + loss2)`. -/
def swav_loss {n : ℕ} (flog : FVal → FVal)
    (gt1 gt2 out1 out2 : Fin n → FVal) : FVal :=
  FVal.mul (FVal.num (1 / 2))
    (FVal.add (ce_loss flog gt1 out2) (ce_loss flog gt2 out1))

/-- Modelled from the spec: the claim describes `swav_loss` as the cross
entropy of view 1's prediction against view 2's target and of view 2's
prediction against view 1's target, "averaged" — i.e. their sum divided
by two. -/
def swav_loss_spec {n : ℕ} (flog : FVal → FVal)
    (gt1 gt2 out1 out2 : Fin n → FVal) : FVal :=
  FVal.div
    (FVal.add (ce_loss flog gt1 out2) (ce_loss flog gt2 out1))
    (FVal.num 2)

lemma half_mul_eq_div_two (x : FVal) :
    FVal.mul (FVal.num (1 / 2)) x = FVal.div x (FVal.num 2) := by
  cases x with
  | num a =>
    simp only [FVal.mul, FVal.div]
    rw [if_neg (by norm_num : ¬(2 : ℚ) = 0)]
    congr 1
    ring
  | pinf =>
    simp only [FVal.mul, FVal.div]
    norm_num
  | ninf =>
    simp only [FVal.mul, FVal.div]
    norm_num
  | nan => rfl

/-- C6: for all same-shaped tensors, `swav_loss(gt1, gt2, out1, out2)`
equals `0.5 * (ce_loss(gt1, out2) + ce_loss(gt2, out1))`, which is the
average of the cross-entropy of view 1's prediction against view 2's
target and of view 2's prediction against view 1's target. -/
theorem swav_loss_is_symmetric_avg {n : ℕ} (flog : FVal → FVal)
    (gt1 gt2 out1 out2 : Fin n → FVal) :
    swav_loss flog gt1 gt2 out1 out2
      = FVal.mul (FVal.num (1 / 2))
          (FVal.add (ce_loss flog gt1 out2) (ce_loss flog gt2 out1)) ∧
    swav_loss flog gt1 gt2 out1 out2
      = swav_loss_spec flog gt1 gt2 out1 out2 :=
  ⟨rfl, half_mul_eq_div_two _⟩

/-- One-hot tensor of length `n` with the 1 at position `i` (the flattened
form of the `f.one_hot(...)` targets fed to `ce_loss`). -/
def oneHot (n : ℕ) (i : Fin n) : Fin n → FVal :=
  fun j => if j = i then FVal.num 1 else FVal.num 0

/-- Sample model of `torch.log` agreeing with IEEE-754 at the two values
where the one-hot claims apply it: `log 1 = 0` and `log 0 = -inf`. -/
def flogSample : FVal → FVal :=
  fun x =>
    if x = FVal.num 1 then FVal.num 0
    else if x = FVal.num 0 then FVal.ninf else FVal.nan

/-- C3 (counterexample): for the one-hot tensor `[1, 0]` and `pred = gt`,
with any log that satisfies `log 1 = 0` and `log 0 = -inf`, the term at
the zero position is `0 * log 0 = 0 * (-inf) = NaN`, so `ce_loss(gt, gt)`
is NaN, not 0. -/
theorem ce_loss_onehot_cex :
    flogSample (FVal.num 1) = FVal.num 0 ∧
      flogSample (FVal.num 0) = FVal.ninf ∧
      ce_loss flogSample (oneHot 2 0) (oneHot 2 0) = FVal.nan := by
  refine ⟨rfl, rfl, ?_⟩
  norm_num [ce_loss, fmean, fsum, oneHot, flogSample, FVal.mul, FVal.div,
    FVal.neg, FVal.add, Fin.succ]

/-- C3 (amended): for every one-hot tensor `gt` and `pred = gt`, and every
log function with the IEEE values `log 1 = 0` and `log 0 = -inf`: the loss
is exactly 0 when `gt` has no zero entry (i.e. `n = 1`); whenever `gt` has
at least one zero entry (`n ≥ 2`) the terms `0 * log 0 = NaN` make the
loss NaN, not 0. -/
theorem ce_loss_onehot_self {n : ℕ} (flog : FVal → FVal)
    (h1 : flog (FVal.num 1) = FVal.num 0)
    (h0 : flog (FVal.num 0) = FVal.ninf) (i : Fin n) :
    ce_loss flog (oneHot n i) (oneHot n i)
      = if n = 1 then FVal.num 0 else FVal.nan := by
  by_cases hn : n = 1
  · subst hn
    rw [if_pos rfl]
    have hterm : ∀ j : Fin 1,
        FVal.mul (oneHot 1 i j) (flog (oneHot 1 i j)) = FVal.num 0 := by
      intro j
      have hj : oneHot 1 i j = FVal.num 1 := by
        simp [oneHot, Subsingleton.elim j i]
      rw [hj, h1]
      show FVal.num (1 * 0) = FVal.num 0
      norm_num
    simp only [ce_loss, fmean]
    rw [fsum_all_zero _ hterm]
    simp only [FVal.div, FVal.neg]
    norm_num
  · rw [if_neg hn]
    have hn2 : 1 < n := by
      have := i.pos
      omega
    obtain ⟨j, hj⟩ := Fintype.exists_ne_of_one_lt_card
      (by simpa using hn2) i
    have hterm : FVal.mul (oneHot n i j) (flog (oneHot n i j))
        = FVal.nan := by
      have hz : oneHot n i j = FVal.num 0 := by simp [oneHot, hj]
      rw [hz, h0]
      simp [FVal.mul]
    simp only [ce_loss, fmean]
    rw [fsum_has_nan _ ⟨j, hterm⟩, FVal.div_nan_left, FVal.neg_nan]

/-- C3 (witness): the amended theorem applied to the one-hot vector of
length 3 with the 1 at position 1, using the sample log model. -/
theorem ce_loss_onehot_self_witness :
    flogSample (FVal.num 1) = FVal.num 0 ∧
      flogSample (FVal.num 0) = FVal.ninf ∧
      ce_loss flogSample (oneHot 3 1) (oneHot 3 1) = FVal.nan := by
  refine ⟨rfl, rfl, ?_⟩
  simpa using ce_loss_onehot_self flogSample rfl rfl (1 : Fin 3)

/-! ## Sinkhorn over the float-like domain (for the NaN claim) -/

/-- Float-domain `torch.sum(Q)`. -/
def ftotalSum {K B : ℕ} (Q : Fin K → Fin B → FVal) : FVal :=
  fsum fun k => fsum fun j => Q k j

/-- Float-domain `torch.sum(Q, dim=1)`. -/
def frowSum {K B : ℕ} (Q : Fin K → Fin B → FVal) (k : Fin K) : FVal :=
  fsum fun j => Q k j

/-- Float-domain `torch.sum(Q, dim=0)`. -/
def fcolSum {K B : ℕ} (Q : Fin K → Fin B → FVal) (j : Fin B) : FVal :=
  fsum fun k => Q k j

/-- Float-domain `Q *= (r / u).unsqueeze(1)`. -/
def frowScale {K B : ℕ} (Q : Fin K → Fin B → FVal) :
    Fin K → Fin B → FVal :=
  fun k j =>
    FVal.mul (Q k j) (FVal.div (FVal.num (1 / (K : ℚ))) (frowSum Q k))

/-- Float-domain `Q *= (c / torch.sum(Q, dim=0)).unsqueeze(0)`. -/
def fcolScale {K B : ℕ} (Q : Fin K → Fin B → FVal) :
    Fin K → Fin B → FVal :=
  fun k j =>
    FVal.mul (Q k j) (FVal.div (FVal.num (1 / (B : ℚ))) (fcolSum Q j))

/-- Float-domain loop body of the solver. -/
def fsinkhornStep {K B : ℕ} (Q : Fin K → Fin B → FVal) :
    Fin K → Fin B → FVal :=
  fcolScale (frowScale Q)

/-- Float-domain `for _ in range(nmb_iters)` loop. -/
def fsinkhornIter {K B : ℕ} :
    ℕ → (Fin K → Fin B → FVal) → (Fin K → Fin B → FVal)
  | 0, Q => Q
  | Nat.succ n, Q => fsinkhornIter n (fsinkhornStep Q)

/-- Float-domain initial normalization `Q /= sum_Q`. -/
def fsinkhornInit {K B : ℕ} (Q : Fin K → Fin B → FVal) :
    Fin K → Fin B → FVal :=
  fun k j => FVal.div (Q k j) (ftotalSum Q)

/-- Float-domain value of `sinkhorn(args, Q, nmb_iters)` (tools.py, lines
583-605), with IEEE NaN/∞ semantics.  The code contains no clamping or
epsilon guard on any of its divisions, exactly as in the source. -/
def fsinkhorn {K B : ℕ} (Q : Fin K → Fin B → FVal) (nmb_iters : ℕ) :
    Fin B → Fin K → FVal :=
  fun j k =>
    FVal.div (fsinkhornIter nmb_iters (fsinkhornInit Q) k j)
      (fcolSum (fsinkhornIter nmb_iters (fsinkhornInit Q)) j)

lemma frowScale_nan {K B : ℕ} {Q : Fin K → Fin B → FVal}
    (h : ∀ k j, Q k j = FVal.nan) : ∀ k j, frowScale Q k j = FVal.nan := by
  intro k j
  simp only [frowScale]
  rw [h k j, FVal.mul_nan_left]

lemma fcolScale_nan {K B : ℕ} {Q : Fin K → Fin B → FVal}
    (h : ∀ k j, Q k j = FVal.nan) : ∀ k j, fcolScale Q k j = FVal.nan := by
  intro k j
  simp only [fcolScale]
  rw [h k j, FVal.mul_nan_left]

lemma fsinkhornStep_nan {K B : ℕ} {Q : Fin K → Fin B → FVal}
    (h : ∀ k j, Q k j = FVal.nan) :
    ∀ k j, fsinkhornStep Q k j = FVal.nan :=
  fcolScale_nan (frowScale_nan h)

lemma fsinkhornIter_nan {K B : ℕ} (n : ℕ) (Q : Fin K → Fin B → FVal)
    (h : ∀ k j, Q k j = FVal.nan) :
    ∀ k j, fsinkhornIter n Q k j = FVal.nan := by
  induction n generalizing Q with
  | zero => exact h
  | succ n ih => exact ih (fsinkhornStep Q) (fsinkhornStep_nan h)

/-- C9: for an all-zero input matrix the solver raises no error and guards
nothing: the total sum is 0, the initial `Q /= sum_Q` produces `0/0 = NaN`
in every entry, NaN propagates through every iteration and through the
final column normalization, and every entry of the returned matrix is
NaN. -/
theorem sinkhorn_allzero_nan {K B : ℕ} (n : ℕ) (j : Fin B) (k : Fin K) :
    fsinkhorn (fun _ _ => FVal.num 0) n j k = FVal.nan := by
  have htotal : ftotalSum (fun _ _ => FVal.num 0 :
      Fin K → Fin B → FVal) = FVal.num 0 :=
    fsum_all_zero _ fun _ => fsum_all_zero _ fun _ => rfl
  have hinit : ∀ (k' : Fin K) (j' : Fin B),
      fsinkhornInit (fun _ _ => FVal.num 0) k' j' = FVal.nan := by
    intro k' j'
    simp only [fsinkhornInit, htotal]
    simp [FVal.div]
  have hfin := fsinkhornIter_nan n _ hinit
  rw [fsinkhorn, hfin k j, FVal.div_nan_left]

/-- A 2 x 2 float matrix whose second row is all zero: non-negative with
positive total sum, yet degenerate for the row rescale (`u = 0`, so
`r/u = inf` and `0 * inf = NaN`). -/
def zeroRowQ : Fin 2 → Fin 2 → FVal :=
  fun k _ => if k = 0 then FVal.num 1 else FVal.num 0

/-- C1 (counterexample): two matrices satisfying the claim's hypotheses
(non-negative, positive total sum, `nmb_iters = 1 ≥ 1`) whose output rows
do not sum to 1.  First, a matrix with an all-zero column: the column
normalization divides 0 by 0 and the corresponding output row sums to 0
in exact arithmetic (NaN in floats).  Second, a matrix with an all-zero
row, traced in the IEEE-like float domain: the row rescale computes
`u = 0`, `r/u = inf`, `0 * inf = NaN`, the NaN poisons the column sums
and the whole matrix, and the output row sum is NaN, not 1. -/
theorem sinkhorn_row_sum_cex :
    ((∀ k j, 0 ≤ zeroColQ k j) ∧ 0 < totalSum zeroColQ ∧
      ∑ k, sinkhorn zeroColQ 1 1 k ≠ 1) ∧
    ((∀ k j, zeroRowQ k j = FVal.num 1 ∨ zeroRowQ k j = FVal.num 0) ∧
      ftotalSum zeroRowQ = FVal.num 2 ∧
      fsum (fun k => fsinkhorn zeroRowQ 1 0 k) = FVal.nan) := by
  refine ⟨⟨fun k j => ?_, ?_, ?_⟩, fun k j => ?_, ?_, ?_⟩
  · dsimp [zeroColQ]; split <;> norm_num
  · norm_num [totalSum, zeroColQ, Fin.sum_univ_succ]
  · norm_num [sinkhorn, sinkhornIter, sinkhornStep, sinkhornInit, rowScale,
      colScale, rowSum, colSum, totalSum, zeroColQ, Fin.sum_univ_succ]
  · dsimp [zeroRowQ]; split <;> simp
  · norm_num [ftotalSum, fsum, zeroRowQ, FVal.add, Fin.succ]
  · norm_num [fsinkhorn, fsinkhornIter, fsinkhornStep, fsinkhornInit,
      frowScale, fcolScale, frowSum, fcolSum, ftotalSum, fsum, zeroRowQ,
      FVal.add, FVal.mul, FVal.div, Fin.succ]

/-! ## roi_align_intersect (tools.py, lines 608-679)

The function computes the intersection of the two crop bounding boxes,
expresses it in percentage coordinates of each crop, converts these to
integer index ranges of the processed H x W x D grid (float-to-int cast,
truncation toward zero), slices each tensor to those ranges (Python slice
semantics) and resamples each slice back to (H, W, D) with
`F.interpolate` (default mode `nearest`: source index
`floor(dst * in/out)`).  `F.interpolate` raises a RuntimeError when a
spatial dimension of its input is empty, which happens exactly when an
integer index range is empty; the embedding returns `none` in that case
and `some` of the four output tensors otherwise.  The outputs are
allocated with `torch.zeros(size=pred.shape)` and every batch element is
overwritten in the loop, so the `some` case is exactly the per-element
resampling.  The `.float()` casts are identities here. -/

/-- Truncation toward zero (the `.int()` cast of a float tensor). -/
def truncInt (q : ℚ) : ℤ := if 0 ≤ q then ⌊q⌋ else ⌈q⌉

/-- Resolution of one bound of a Python slice `t[a:b]` on a dimension of
size `n`: a negative index counts from the end and both bounds are
clamped to `[0, n]`. -/
def sliceBound (n : ℕ) (a : ℤ) : ℕ :=
  if a < 0 then (a + n).toNat else min a.toNat n

lemma sliceBound_le (n : ℕ) (a : ℤ) : sliceBound n a ≤ n := by
  rw [sliceBound]; split <;> omega

/-- Integer grid index of the intersection coordinate `q` inside a view
with extent `lo..hi`, processed at resolution `n`: the percentage
coordinate `(q - lo) / (hi - lo)` scaled by `n` and cast to int. -/
def viewIdx (n : ℕ) (lo hi q : ℚ) : ℤ :=
  truncInt ((q - lo) / (hi - lo) * n)

/-- Lower slice index of one axis for one view; the intersection lower
coordinate is `max lo loB` (`torch.maximum`). -/
def axLo (n : ℕ) (lo hi loB : ℚ) : ℕ :=
  sliceBound n (viewIdx n lo hi (max lo loB))

/-- Upper slice index of one axis for one view; the intersection upper
coordinate is `min hi hiB` (`torch.minimum`). -/
def axHi (n : ℕ) (lo hi hiB : ℚ) : ℕ :=
  sliceBound n (viewIdx n lo hi (min hi hiB))

lemma axHi_le (n : ℕ) (lo hi hiB : ℚ) : axHi n lo hi hiB ≤ n :=
  sliceBound_le n _

/-- Source index selected by nearest-neighbour `F.interpolate` when the
slice `s..e` of a dimension is resampled to the full resolution `n`. -/
def nearestIdx (n s e : ℕ) (i : Fin n) : ℕ := s + i.val * (e - s) / n

lemma nearestIdx_lt {n s e : ℕ} (he : e ≤ n) (hs : s < e) (i : Fin n) :
    nearestIdx n s e i < n := by
  have hn : 0 < n := i.pos
  have hL : 0 < e - s := by omega
  have h1 : i.val * (e - s) < (e - s) * n := by
    calc i.val * (e - s) < n * (e - s) :=
          mul_lt_mul_of_pos_right i.isLt hL
    _ = (e - s) * n := Nat.mul_comm n (e - s)
  have h2 : i.val * (e - s) / n < e - s := (Nat.div_lt_iff_lt_mul hn).mpr h1
  have : nearestIdx n s e i = s + i.val * (e - s) / n := rfl
  omega

/-- Per-channel slice-and-resample
`F.interpolate(t[:, xs:xe, ys:ye, zs:ze].unsqueeze(0), size=(H,W,D))`
with non-empty slice ranges. -/
def resample {K H W D : ℕ} (t : Fin K → Fin H → Fin W → Fin D → ℚ)
    (xs xe ys ye zs ze : ℕ)
    (hx : xs < xe ∧ xe ≤ H) (hy : ys < ye ∧ ye ≤ W)
    (hz : zs < ze ∧ ze ≤ D) :
    Fin K → Fin H → Fin W → Fin D → ℚ :=
  fun k i j l =>
    t k ⟨nearestIdx H xs xe i, nearestIdx_lt hx.2 hx.1 i⟩
      ⟨nearestIdx W ys ye j, nearestIdx_lt hy.2 hy.1 j⟩
      ⟨nearestIdx D zs ze l, nearestIdx_lt hz.2 hz.1 l⟩

/-- Non-degeneracy of the three integer slice ranges of one view: exactly
the condition under which `F.interpolate` accepts the sliced input. -/
def viewOk (H W D : ℕ) (self other : Fin 6 → ℚ) : Prop :=
  axLo H (self 0) (self 1) (other 0) < axHi H (self 0) (self 1) (other 1) ∧
  axLo W (self 2) (self 3) (other 2) < axHi W (self 2) (self 3) (other 3) ∧
  axLo D (self 4) (self 5) (other 4) < axHi D (self 4) (self 5) (other 5)

instance {H W D : ℕ} {self other : Fin 6 → ℚ} :
    Decidable (viewOk H W D self other) := by
  unfold viewOk; infer_instance

/-- Aligned output of one view for one batch element. -/
def viewResample {K H W D : ℕ} (t : Fin K → Fin H → Fin W → Fin D → ℚ)
    (self other : Fin 6 → ℚ) (h : viewOk H W D self other) :
    Fin K → Fin H → Fin W → Fin D → ℚ :=
  resample t
    (axLo H (self 0) (self 1) (other 0)) (axHi H (self 0) (self 1) (other 1))
    (axLo W (self 2) (self 3) (other 2)) (axHi W (self 2) (self 3) (other 3))
    (axLo D (self 4) (self 5) (other 4)) (axHi D (self 4) (self 5) (other 5))
    ⟨h.1, axHi_le H _ _ _⟩ ⟨h.2.1, axHi_le W _ _ _⟩ ⟨h.2.2, axHi_le D _ _ _⟩

/-- Success condition of the whole call: every batch element has
non-degenerate integer ranges in both views. -/
def allOk {Bb : ℕ} (H W D : ℕ) (box1 box2 : Fin Bb → Fin 6 → ℚ) : Prop :=
  ∀ b, viewOk H W D (box1 b) (box2 b) ∧ viewOk H W D (box2 b) (box1 b)

instance {Bb H W D : ℕ} {box1 box2 : Fin Bb → Fin 6 → ℚ} :
    Decidable (allOk H W D box1 box2) := by
  unfold allOk; infer_instance

/-- Shallow embedding of `roi_align_intersect(pred1, pred2, gt1, gt2,
box1, box2)`: `none` models the RuntimeError raised by `F.interpolate`
on an empty slice; otherwise the four outputs, each of the input's
shape. -/
def roi_align_intersect {Bb K H W D : ℕ}
    (pred1 pred2 gt1 gt2 : Fin Bb → Fin K → Fin H → Fin W → Fin D → ℚ)
    (box1 box2 : Fin Bb → Fin 6 → ℚ) :
    Option ((Fin Bb → Fin K → Fin H → Fin W → Fin D → ℚ) ×
      (Fin Bb → Fin K → Fin H → Fin W → Fin D → ℚ) ×
      (Fin Bb → Fin K → Fin H → Fin W → Fin D → ℚ) ×
      (Fin Bb → Fin K → Fin H → Fin W → Fin D → ℚ)) :=
  if h : allOk H W D box1 box2 then
    some
      (fun b => viewResample (pred1 b) (box1 b) (box2 b) (h b).1,
       fun b => viewResample (pred2 b) (box2 b) (box1 b) (h b).2,
       fun b => viewResample (gt1 b) (box1 b) (box2 b) (h b).1,
       fun b => viewResample (gt2 b) (box2 b) (box1 b) (h b).2)
  else none

lemma axLo_self (n : ℕ) (lo hi : ℚ) : axLo n lo hi lo = 0 := by
  simp [axLo, viewIdx, truncInt, sliceBound]

lemma axHi_self (n : ℕ) (lo hi : ℚ) (h : lo < hi) : axHi n lo hi hi = n := by
  rw [axHi, min_self, viewIdx, div_self (sub_ne_zero.mpr (ne_of_gt h)),
    one_mul]
  rw [truncInt, if_pos (by positivity : (0 : ℚ) ≤ (n : ℚ))]
  rw [Int.floor_natCast]
  rw [sliceBound, if_neg (by omega : ¬((n : ℤ) < 0)), Int.toNat_natCast,
    min_self]

lemma nearestIdx_full (n : ℕ) (i : Fin n) : nearestIdx n 0 n i = i.val := by
  show 0 + i.val * (n - 0) / n = i.val
  rw [Nat.sub_zero, Nat.zero_add]
  exact Nat.mul_div_cancel i.val i.pos

lemma tensor_index_congr {K H W D : ℕ}
    (t : Fin K → Fin H → Fin W → Fin D → ℚ) (k : Fin K)
    {a a' : Fin H} {b b' : Fin W} {c c' : Fin D}
    (ha : a = a') (hb : b = b') (hc : c = c') :
    t k a b c = t k a' b' c' := by
  subst ha; subst hb; subst hc; rfl

lemma viewResample_eq_self {K H W D : ℕ}
    (t : Fin K → Fin H → Fin W → Fin D → ℚ) (self other : Fin 6 → ℚ)
    (heq : self = other)
    (h1 : self 0 < self 1) (h2 : self 2 < self 3) (h3 : self 4 < self 5)
    (h : viewOk H W D self other) :
    viewResample t self other h = t := by
  subst heq
  funext k i j l
  have hxv : nearestIdx H (axLo H (self 0) (self 1) (self 0))
      (axHi H (self 0) (self 1) (self 1)) i = i.val := by
    rw [axLo_self, axHi_self H (self 0) (self 1) h1, nearestIdx_full]
  have hyv : nearestIdx W (axLo W (self 2) (self 3) (self 2))
      (axHi W (self 2) (self 3) (self 3)) j = j.val := by
    rw [axLo_self, axHi_self W (self 2) (self 3) h2, nearestIdx_full]
  have hzv : nearestIdx D (axLo D (self 4) (self 5) (self 4))
      (axHi D (self 4) (self 5) (self 5)) l = l.val := by
    rw [axLo_self, axHi_self D (self 4) (self 5) h3, nearestIdx_full]
  exact tensor_index_congr t k (Fin.ext hxv) (Fin.ext hyv) (Fin.ext hzv)

/-- C7: for every batch element where the two bounding boxes coincide
(identical crops with positive extent in each axis), a successful call of
`roi_align_intersect` returns the four input tensors unchanged at that
element: the intersection is the full extent, the fractional sub-region
is [0,1] in every axis, and nearest resampling of the full range back to
(H, W, D) is the identity. -/
theorem roi_align_identity {Bb K H W D : ℕ}
    (pred1 pred2 gt1 gt2 : Fin Bb → Fin K → Fin H → Fin W → Fin D → ℚ)
    (box1 box2 : Fin Bb → Fin 6 → ℚ) (b : Fin Bb)
    (heq : box1 b = box2 b)
    (hx : box1 b 0 < box1 b 1) (hy : box1 b 2 < box1 b 3)
    (hz : box1 b 4 < box1 b 5)
    (r : (Fin Bb → Fin K → Fin H → Fin W → Fin D → ℚ) ×
      (Fin Bb → Fin K → Fin H → Fin W → Fin D → ℚ) ×
      (Fin Bb → Fin K → Fin H → Fin W → Fin D → ℚ) ×
      (Fin Bb → Fin K → Fin H → Fin W → Fin D → ℚ))
    (hr : roi_align_intersect pred1 pred2 gt1 gt2 box1 box2 = some r) :
    r.1 b = pred1 b ∧ r.2.1 b = pred2 b ∧
      r.2.2.1 b = gt1 b ∧ r.2.2.2 b = gt2 b := by
  rw [roi_align_intersect] at hr
  split at hr
  · rename_i hall
    injection hr with hr'
    subst hr'
    have hx2 : box2 b 0 < box2 b 1 := heq ▸ hx
    have hy2 : box2 b 2 < box2 b 3 := heq ▸ hy
    have hz2 : box2 b 4 < box2 b 5 := heq ▸ hz
    exact ⟨viewResample_eq_self (pred1 b) _ _ heq hx hy hz (hall b).1,
      viewResample_eq_self (pred2 b) _ _ heq.symm hx2 hy2 hz2 (hall b).2,
      viewResample_eq_self (gt1 b) _ _ heq hx hy hz (hall b).1,
      viewResample_eq_self (gt2 b) _ _ heq.symm hx2 hy2 hz2 (hall b).2⟩
  · exact absurd hr (by simp)

/-- Bounding box pair of the C2 counterexample: `[0,10] x [0,10] x [0,10]`
and `[9.75,20] x [0,10] x [0,10]`, whose real intersection
`[9.75,10] x [0,10] x [0,10]` is non-empty but thinner than one grid cell
of view 2 along the x axis. -/
def cexBox1 : Fin 6 → ℚ := ![0, 10, 0, 10, 0, 10]

/-- Second box of the C2 counterexample. -/
def cexBox2 : Fin 6 → ℚ := ![39/4, 20, 0, 10, 0, 10]

/-- Constant input tensor of the C2 counterexample (B = K = 1,
H = W = D = 4). -/
def cexT : Fin 1 → Fin 1 → Fin 4 → Fin 4 → Fin 4 → ℚ := fun _ _ _ _ _ => 0

/-- C2 (counterexample): the two boxes have a non-empty intersection in
every axis, yet `roi_align_intersect` does not return four tensors — the
integer index range of view 2 along x collapses to `0:0` after the int
cast, the sliced tensor is empty, and `F.interpolate` raises (modelled by
`none`). -/
theorem roi_align_shape_cex :
    (max (cexBox1 0) (cexBox2 0) < min (cexBox1 1) (cexBox2 1) ∧
      max (cexBox1 2) (cexBox2 2) < min (cexBox1 3) (cexBox2 3) ∧
      max (cexBox1 4) (cexBox2 4) < min (cexBox1 5) (cexBox2 5)) ∧
    roi_align_intersect cexT cexT cexT cexT
      (fun _ => cexBox1) (fun _ => cexBox2) = none := by
  constructor
  · refine ⟨?_, ?_, ?_⟩
    · show max (0 : ℚ) (39/4) < min 10 20
      norm_num
    · show max (0 : ℚ) 0 < min 10 10
      norm_num
    · show max (0 : ℚ) 0 < min 10 10
      norm_num
  · have hno : ¬ allOk 4 4 4 (fun _ : Fin 1 => cexBox1)
        (fun _ => cexBox2) := by
      intro hall
      have h2 : axLo 4 ((39 : ℚ)/4) 20 0 < axHi 4 ((39 : ℚ)/4) 20 10 :=
        (hall 0).2.1
      have eLo : axLo 4 ((39 : ℚ)/4) 20 0 = 0 := by
        rw [axLo, viewIdx]
        push_cast
        rw [show ((max ((39 : ℚ)/4) 0 - 39/4) / (20 - 39/4) * 4) = 0 by
          rw [max_eq_left (by norm_num)]; norm_num]
        norm_num [truncInt, sliceBound]
      have eHi : axHi 4 ((39 : ℚ)/4) 20 10 = 0 := by
        rw [axHi, viewIdx]
        push_cast
        rw [show ((min (20 : ℚ) 10 - 39/4) / (20 - 39/4) * 4) = 4/41 by
          rw [min_eq_right (by norm_num)]; norm_num]
        rw [truncInt, if_pos (by norm_num : (0 : ℚ) ≤ 4/41)]
        rw [show ⌊(4/41 : ℚ)⌋ = 0 by norm_num]
        norm_num [sliceBound]
      rw [eLo, eHi] at h2
      exact absurd h2 (lt_irrefl 0)
    rw [roi_align_intersect, dif_neg hno]

/-- C2 (amended): whenever every batch element's intersection produces
non-empty integer index ranges in both views (`allOk`), the call succeeds
and returns four tensors; their shapes equal the corresponding inputs'
shape (B, K, H, W, D) by the very type of the result.  When some integer
range is empty — possible even for a non-empty real intersection — the
interpolation raises instead of returning tensors. -/
theorem roi_align_shape {Bb K H W D : ℕ}
    (pred1 pred2 gt1 gt2 : Fin Bb → Fin K → Fin H → Fin W → Fin D → ℚ)
    (box1 box2 : Fin Bb → Fin 6 → ℚ) (h : allOk H W D box1 box2) :
    ∃ r, roi_align_intersect pred1 pred2 gt1 gt2 box1 box2 = some r := by
  rw [roi_align_intersect, dif_pos h]
  exact ⟨_, rfl⟩

/-- Box of the ROI witnesses: the cube `[0,2]^3`. -/
def wBox : Fin 6 → ℚ := ![0, 2, 0, 2, 0, 2]

/-- Input tensor of the ROI witnesses (B = K = 1, H = W = D = 2). -/
def wT : Fin 1 → Fin 1 → Fin 2 → Fin 2 → Fin 2 → ℚ :=
  fun _ _ i j l => (i.val : ℚ) + 2 * j.val + 4 * l.val

lemma wBox_viewOk : viewOk 2 2 2 wBox wBox := by
  refine ⟨?_, ?_, ?_⟩ <;>
    · show axLo 2 0 2 0 < axHi 2 0 2 2
      rw [axLo_self, axHi_self 2 0 2 (by norm_num)]
      norm_num

lemma wBox_allOk :
    allOk 2 2 2 (fun _ : Fin 1 => wBox) (fun _ => wBox) :=
  fun _ => ⟨wBox_viewOk, wBox_viewOk⟩

/-- C2 (witness): the amended theorem applied to identical unit-cube
boxes, whose ranges are all non-empty. -/
theorem roi_align_shape_witness :
    allOk 2 2 2 (fun _ : Fin 1 => wBox) (fun _ => wBox) ∧
    ∃ r, roi_align_intersect wT wT wT wT
      (fun _ => wBox) (fun _ => wBox) = some r :=
  ⟨wBox_allOk, roi_align_shape wT wT wT wT _ _ wBox_allOk⟩

/-- C7 (witness): the identity theorem applied to a concrete call with
identical boxes; all four outputs equal the input tensor. -/
theorem roi_align_identity_witness :
    ∃ r, roi_align_intersect wT wT wT wT
        (fun _ => wBox) (fun _ => wBox) = some r ∧
      r.1 0 = wT 0 ∧ r.2.1 0 = wT 0 ∧ r.2.2.1 0 = wT 0 ∧
        r.2.2.2 0 = wT 0 := by
  obtain ⟨r, hr⟩ : ∃ r, roi_align_intersect wT wT wT wT
      (fun _ => wBox) (fun _ => wBox) = some r := by
    rw [roi_align_intersect, dif_pos wBox_allOk]
    exact ⟨_, rfl⟩
  refine ⟨r, hr, ?_⟩
  have hlt1 : wBox 0 < wBox 1 := by show (0 : ℚ) < 2; norm_num
  have hlt2 : wBox 2 < wBox 3 := by show (0 : ℚ) < 2; norm_num
  have hlt3 : wBox 4 < wBox 5 := by show (0 : ℚ) < 2; norm_num
  exact roi_align_identity wT wT wT wT _ _ 0 rfl hlt1 hlt2 hlt3 r hr

/-! ## AverageMeter (tools.py, lines 485-504) and the per-batch guard of
the training loops (train_3d.py: `train_cluster_inner` lines 379-391 and
`train_cluster_patch_inner` lines 629-641)

The model forward pass, the loss computation and the optimizer are
external collaborators (out of scope per the spec), so a batch step is
embedded as a function of the already-computed scalar cluster loss, the
batch size `B`, and an abstract parameter-update map `optStep` standing
for `optimizer.zero_grad(); loss.backward(); optimizer.step()`.  In both
inner loops `loss1 = cluster_loss = loss`, `loss2 = torch.tensor(0)` and
`local_loss = 0` (the other losses are placeholders in the source), and
the four meter updates run strictly after the guard's `continue`.  The
timing meters (`batch_time`, `data_time`) are external wall-clock state
and are not modelled. -/

/-- Running metrics accumulator `AverageMeter` of tools.py. -/
structure AverageMeter where
  val : ℚ
  avg : ℚ
  sum : ℚ
  count : ℕ

/-- State after `__init__` / `reset()`: all fields zero. -/
def AverageMeter.init : AverageMeter :=
  { val := 0, avg := 0, sum := 0, count := 0 }

/-- Method `update(val, n)`: `val = v; sum += v * n; count += n;
avg = sum / count`. -/
def AverageMeter.update (m : AverageMeter) (v : ℚ) (n : ℕ) : AverageMeter :=
  { val := v,
    sum := m.sum + v * n,
    count := m.count + n,
    avg := (m.sum + v * n) / ((m.count + n : ℕ) : ℚ) }

/-- Mutable state of one inner training loop that the guard can affect:
the model parameters (abstract type `P`) and the four loss meters. -/
structure TrainState (P : Type) where
  params : P
  mg_loss_meter : AverageMeter
  loss_meter : AverageMeter
  prob_meter : AverageMeter
  total_loss_meter : AverageMeter

/-- One batch of `train_cluster_inner` from the guard on: if
`loss > 1000 and epoch > 10` the step is skipped (`continue`) and the
state is unchanged; otherwise the optimizer steps and the meters fold in
`loss1 = loss`, `loss2 = 0`, `local_loss = 0`, `loss` with weight `B`. -/
def train_cluster_batch {P : Type} (optStep : P → P) (epoch : ℕ)
    (loss : ℚ) (B : ℕ) (s : TrainState P) : TrainState P :=
  if 1000 < loss ∧ 10 < epoch then s
  else
    { params := optStep s.params,
      mg_loss_meter := s.mg_loss_meter.update loss B,
      loss_meter := s.loss_meter.update 0 B,
      prob_meter := s.prob_meter.update 0 B,
      total_loss_meter := s.total_loss_meter.update loss B }

/-- One batch of `train_cluster_patch_inner` from the guard on; the
source block (lines 629-641) is line-for-line the same as the one in
`train_cluster_inner`. -/
def train_cluster_patch_batch {P : Type} (optStep : P → P) (epoch : ℕ)
    (loss : ℚ) (B : ℕ) (s : TrainState P) : TrainState P :=
  if 1000 < loss ∧ 10 < epoch then s
  else
    { params := optStep s.params,
      mg_loss_meter := s.mg_loss_meter.update loss B,
      loss_meter := s.loss_meter.update 0 B,
      prob_meter := s.prob_meter.update 0 B,
      total_loss_meter := s.total_loss_meter.update loss B }

/-- One epoch of `train_cluster_inner`: fold of the batch step over the
stream of (scalar loss, batch size) pairs produced by the loader and the
forward pass. -/
def train_cluster_epoch {P : Type} (optStep : P → P) (epoch : ℕ)
    (batches : List (ℚ × ℕ)) (s : TrainState P) : TrainState P :=
  batches.foldl
    (fun st lb => train_cluster_batch optStep epoch lb.1 lb.2 st) s

/-- One epoch of `train_cluster_patch_inner`. -/
def train_cluster_patch_epoch {P : Type} (optStep : P → P) (epoch : ℕ)
    (batches : List (ℚ × ℕ)) (s : TrainState P) : TrainState P :=
  batches.foldl
    (fun st lb => train_cluster_patch_batch optStep epoch lb.1 lb.2 st) s

/-- C4: in every training step of `train_cluster_inner` and
`train_cluster_patch_inner` with `epoch > 10` and scalar `loss > 1000`,
the guard skips the optimizer step, so the model parameters are unchanged
by that step. -/
theorem loss_guard_skips_step {P : Type} (optStep : P → P) (epoch : ℕ)
    (loss : ℚ) (B : ℕ) (s : TrainState P)
    (hl : 1000 < loss) (he : 10 < epoch) :
    (train_cluster_batch optStep epoch loss B s).params = s.params ∧
    (train_cluster_patch_batch optStep epoch loss B s).params
      = s.params := by
  refine ⟨?_, ?_⟩
  · rw [train_cluster_batch, if_pos ⟨hl, he⟩]
  · rw [train_cluster_patch_batch, if_pos ⟨hl, he⟩]

/-- Concrete training state for the guard witnesses. -/
def wState : TrainState ℚ :=
  { params := 0,
    mg_loss_meter := AverageMeter.init,
    loss_meter := AverageMeter.init,
    prob_meter := AverageMeter.init,
    total_loss_meter := AverageMeter.init }

/-- C4 (witness): the guard theorem at epoch 11 and loss 1001, with a
parameter update that would change the parameters if it ran. -/
theorem loss_guard_skips_step_witness :
    (1000 : ℚ) < 1001 ∧ 10 < 11 ∧
    (train_cluster_batch (fun p : ℚ => p + 1) 11 1001 2 wState).params
      = wState.params ∧
    (train_cluster_patch_batch (fun p : ℚ => p + 1) 11 1001 2
        wState).params = wState.params :=
  ⟨by norm_num, by norm_num,
    (loss_guard_skips_step (fun p : ℚ => p + 1) 11 1001 2 wState
      (by norm_num) (by norm_num)).1,
    (loss_guard_skips_step (fun p : ℚ => p + 1) 11 1001 2 wState
      (by norm_num) (by norm_num)).2⟩

lemma train_cluster_epoch_filter {P : Type} (optStep : P → P) (epoch : ℕ)
    (batches : List (ℚ × ℕ)) (s : TrainState P) :
    train_cluster_epoch optStep epoch batches s
      = train_cluster_epoch optStep epoch
          (batches.filter fun lb => !decide (1000 < lb.1 ∧ 10 < epoch))
          s := by
  induction batches generalizing s with
  | nil => rfl
  | cons hd tl ih =>
    by_cases hg : 1000 < hd.1 ∧ 10 < epoch
    · have hskip : train_cluster_batch optStep epoch hd.1 hd.2 s = s := by
        rw [train_cluster_batch, if_pos hg]
      have hfil : ((hd :: tl).filter
          fun lb => !decide (1000 < lb.1 ∧ 10 < epoch))
          = tl.filter fun lb => !decide (1000 < lb.1 ∧ 10 < epoch) := by
        simp [List.filter_cons, hg]
      rw [hfil]
      show train_cluster_epoch optStep epoch tl
          (train_cluster_batch optStep epoch hd.1 hd.2 s)
        = train_cluster_epoch optStep epoch
            (tl.filter fun lb => !decide (1000 < lb.1 ∧ 10 < epoch)) s
      rw [hskip, ih]
    · have hfil : ((hd :: tl).filter
          fun lb => !decide (1000 < lb.1 ∧ 10 < epoch))
          = hd :: tl.filter
              fun lb => !decide (1000 < lb.1 ∧ 10 < epoch) := by
        simp [List.filter_cons, hg]
      rw [hfil]
      show train_cluster_epoch optStep epoch tl
          (train_cluster_batch optStep epoch hd.1 hd.2 s)
        = train_cluster_epoch optStep epoch
            (tl.filter fun lb => !decide (1000 < lb.1 ∧ 10 < epoch))
            (train_cluster_batch optStep epoch hd.1 hd.2 s)
      rw [ih]

lemma train_cluster_patch_epoch_filter {P : Type} (optStep : P → P)
    (epoch : ℕ) (batches : List (ℚ × ℕ)) (s : TrainState P) :
    train_cluster_patch_epoch optStep epoch batches s
      = train_cluster_patch_epoch optStep epoch
          (batches.filter fun lb => !decide (1000 < lb.1 ∧ 10 < epoch))
          s := by
  induction batches generalizing s with
  | nil => rfl
  | cons hd tl ih =>
    by_cases hg : 1000 < hd.1 ∧ 10 < epoch
    · have hskip : train_cluster_patch_batch optStep epoch hd.1 hd.2 s
          = s := by
        rw [train_cluster_patch_batch, if_pos hg]
      have hfil : ((hd :: tl).filter
          fun lb => !decide (1000 < lb.1 ∧ 10 < epoch))
          = tl.filter fun lb => !decide (1000 < lb.1 ∧ 10 < epoch) := by
        simp [List.filter_cons, hg]
      rw [hfil]
      show train_cluster_patch_epoch optStep epoch tl
          (train_cluster_patch_batch optStep epoch hd.1 hd.2 s)
        = train_cluster_patch_epoch optStep epoch
            (tl.filter fun lb => !decide (1000 < lb.1 ∧ 10 < epoch)) s
      rw [hskip, ih]
    · have hfil : ((hd :: tl).filter
          fun lb => !decide (1000 < lb.1 ∧ 10 < epoch))
          = hd :: tl.filter
              fun lb => !decide (1000 < lb.1 ∧ 10 < epoch) := by
        simp [List.filter_cons, hg]
      rw [hfil]
      show train_cluster_patch_epoch optStep epoch tl
          (train_cluster_patch_batch optStep epoch hd.1 hd.2 s)
        = train_cluster_patch_epoch optStep epoch
            (tl.filter fun lb => !decide (1000 < lb.1 ∧ 10 < epoch))
            (train_cluster_patch_batch optStep epoch hd.1 hd.2 s)
      rw [ih]

/-- C10: when the guard triggers (`loss > 1000` and `epoch > 10`), the
`continue` bypasses all four meter updates in both inner loops, so a
skipped batch contributes nothing to `mg_loss_meter`, `loss_meter`,
`prob_meter` or `total_loss_meter`; consequently an epoch's fold equals
the fold over only the non-skipped batches, so the returned running
averages are computed over non-skipped batches only. -/
theorem loss_guard_skips_meters {P : Type} (optStep : P → P) (epoch : ℕ)
    (loss : ℚ) (B : ℕ) (s : TrainState P) (batches : List (ℚ × ℕ))
    (hl : 1000 < loss) (he : 10 < epoch) :
    ((train_cluster_batch optStep epoch loss B s).mg_loss_meter
        = s.mg_loss_meter ∧
      (train_cluster_batch optStep epoch loss B s).loss_meter
        = s.loss_meter ∧
      (train_cluster_batch optStep epoch loss B s).prob_meter
        = s.prob_meter ∧
      (train_cluster_batch optStep epoch loss B s).total_loss_meter
        = s.total_loss_meter) ∧
    ((train_cluster_patch_batch optStep epoch loss B s).mg_loss_meter
        = s.mg_loss_meter ∧
      (train_cluster_patch_batch optStep epoch loss B s).loss_meter
        = s.loss_meter ∧
      (train_cluster_patch_batch optStep epoch loss B s).prob_meter
        = s.prob_meter ∧
      (train_cluster_patch_batch optStep epoch loss B s).total_loss_meter
        = s.total_loss_meter) ∧
    train_cluster_epoch optStep epoch batches s
      = train_cluster_epoch optStep epoch
          (batches.filter fun lb => !decide (1000 < lb.1 ∧ 10 < epoch))
          s ∧
    train_cluster_patch_epoch optStep epoch batches s
      = train_cluster_patch_epoch optStep epoch
          (batches.filter fun lb => !decide (1000 < lb.1 ∧ 10 < epoch))
          s := by
  have h1 : train_cluster_batch optStep epoch loss B s = s := by
    rw [train_cluster_batch, if_pos ⟨hl, he⟩]
  have h2 : train_cluster_patch_batch optStep epoch loss B s = s := by
    rw [train_cluster_patch_batch, if_pos ⟨hl, he⟩]
  exact ⟨⟨by rw [h1], by rw [h1], by rw [h1], by rw [h1]⟩,
    ⟨by rw [h2], by rw [h2], by rw [h2], by rw [h2]⟩,
    train_cluster_epoch_filter optStep epoch batches s,
    train_cluster_patch_epoch_filter optStep epoch batches s⟩

/-- C10 (witness): the meter-frame theorem at epoch 11, loss 1001 and a
two-batch epoch in which the first batch is skipped. -/
theorem loss_guard_skips_meters_witness :
    (1000 : ℚ) < 1001 ∧ 10 < 11 ∧
    (train_cluster_batch (fun p : ℚ => p + 1) 11 1001 2
        wState).mg_loss_meter = wState.mg_loss_meter ∧
    train_cluster_epoch (fun p : ℚ => p + 1) 11 [(1001, 2), (3, 2)] wState
      = train_cluster_epoch (fun p : ℚ => p + 1) 11
          ([(1001, 2), (3, 2)].filter
            fun lb => !decide (1000 < lb.1 ∧ 10 < (11 : ℕ))) wState :=
  ⟨by norm_num, by norm_num,
    (loss_guard_skips_meters (fun p : ℚ => p + 1) 11 1001 2 wState
      [(1001, 2), (3, 2)] (by norm_num) (by norm_num)).1.1,
    (loss_guard_skips_meters (fun p : ℚ => p + 1) 11 1001 2 wState
      [(1001, 2), (3, 2)] (by norm_num) (by norm_num)).2.2.1⟩
